import Mathlib

/-!
Verification of the transcode orchestration and progress-estimation engine of
a Python 2 script (helpers/avconv.py).  The script resolves an effective
bitrate, decides whether transcoding is needed, launches an external process,
and — in monitored mode — parses its diagnostic stream for position markers,
estimates throughput by linear regression, and renders progress with an ETA.

Shallow embedding conventions:
* Python ints are modelled as Lean Int (or Nat where the code guarantees it),
  Python floats as exact rationals (the script performs no operation whose
  behaviour depends on rounding for the claims at hand).
* Fallible Python code (raised exceptions) is modelled with Except/Option.
* The wall clock (time.time()), the CLI arguments and the external process's
  poll results and stream bytes are inputs of the model.
-/

/-! ### Bitrate resolution (avconv.py lines 77-85)

Python:
  if not args.bitrate:
      try:
          bitrate = int(128)
      except KeyError:
          bitrate = bitrate_src
  else:
      bitrate = args.bitrate
  bitrate = min(bitrate, bitrate_src)
-/

/-- Python truthiness test "not args.bitrate": true when the optional bitrate
argument is absent (None) or equal to 0. -/
def pyFalsy : Option ℤ → Bool
  | none => true
  | some v => v == 0

/-- The expression int(128) of line 79: it always evaluates to 128 and can
never raise KeyError, modelled as an Except value that is always ok. -/
def int128 : Except Unit ℤ := .ok 128

/-- Lines 78-81: the try/except KeyError block.  The handler would fall back
to the source bitrate, but int128 never raises. -/
def defaultBitrate (bitrate_src : ℤ) : ℤ :=
  match int128 with
  | .ok v => v
  | .error _ => bitrate_src

/-- Lines 77-83: the bitrate before the min-clamp of line 85. -/
def preClampBitrate (args_bitrate : Option ℤ) (bitrate_src : ℤ) : ℤ :=
  if pyFalsy args_bitrate then defaultBitrate bitrate_src
  else args_bitrate.getD 0

/-- Line 85: bitrate = min(bitrate, bitrate_src). -/
def resolveEffective (args_bitrate : Option ℤ) (bitrate_src : ℤ) : ℤ :=
  min (preClampBitrate args_bitrate bitrate_src) bitrate_src

/-! ### Force flag and the nothing-to-do short circuit (lines 89-94)

Python:
  force = args.f or bitrate != bitrate_src
  if not (force or has_aac_ext):
      print('nothing to do ...')
      exit(0)
-/

/-- Line 90: force = args.f or bitrate != bitrate_src. -/
def forceFlag (args_f : Bool) (bitrate bitrate_src : ℤ) : Bool :=
  args_f || bitrate != bitrate_src

/-- Line 92 condition: not (force or has_aac_ext). -/
def nothingToDo (force has_aac_ext : Bool) : Bool :=
  !(force || has_aac_ext)

/-- Lines 92-94: when the condition holds the script exits with status 0
before any process is launched; otherwise execution continues. -/
def earlyExit (force has_aac_ext : Bool) : Option ℤ :=
  if nothingToDo force has_aac_ext then some 0 else none

/-! ### Driver outcome (lines 92-94, 127-131, 204)

The spawn attempt (subprocess.Popen, line 128) either fails with OSError
(modelled .error) or yields a process whose eventual exit status the script
waits for/polls; line 204 is exit(ret).  Result components: the script's own
exit status, whether a transcoding process ran, and whether the fatal
spawn-failure diagnostic of line 130 was printed. -/
def driverRun (force has_aac_ext : Bool) (spawn : Except Unit ℤ) : ℤ × Bool × Bool :=
  match earlyExit force has_aac_ext with
  | some c => (c, false, false)
  | none =>
    match spawn with
    | .error _ => (1, false, true)
    | .ok code => (code, true, false)

/-! ### Speedometer (lines 134-163)

Python:
  class Speedometer:
      def __init__(self, N=100, epsilon=0.1, delta=0.1):
          self.epsilon, self.delta = epsilon, delta
          self.x = collections.deque(maxlen=N)
          self.y = collections.deque(maxlen=N)
      def add(self, yn):
          t = time.time()
          yn = float(yn)
          if ((len(self.x)>0 and abs(t-self.x[-1]) < self.delta) or
                  (len(self.y)>0 and abs(yn-self.y[-1]) < self.epsilon)):
              return
          self.x.append(t)
          self.y.append(yn)
      def speed(self):
          n = len(self.x)
          if n<2:
              raise ValueError('need at least two data points')
          xm = sum(self.x)/n
          ym = sum(self.y)/n
          nom = sum((self.x[i]-xm)*(self.y[i]-ym) for i in xrange(n))
          den = sum((self.x[i]-xm)**2 for i in xrange(n))
          return nom/den

The wall-clock value t of add is an explicit argument of the model. -/

structure Speedometer where
  N : ℕ
  epsilon : ℚ
  delta : ℚ
  x : List ℚ
  y : List ℚ
deriving DecidableEq

/-- Speedometer() with the default parameters N=100, epsilon=0.1, delta=0.1
(line 172 constructs it this way). -/
def Speedometer.start : Speedometer :=
  { N := 100, epsilon := 1/10, delta := 1/10, x := [], y := [] }

/-- The discard condition of lines 147-148. -/
def Speedometer.discards (s : Speedometer) (t yn : ℚ) : Prop :=
  (s.x ≠ [] ∧ abs (t - s.x.getLastD 0) < s.delta) ∨
  (s.y ≠ [] ∧ abs (yn - s.y.getLastD 0) < s.epsilon)

instance (s : Speedometer) (t yn : ℚ) : Decidable (s.discards t yn) := by
  unfold Speedometer.discards; infer_instance

/-- deque.append on a deque with maxlen N: append on the right, evicting from
the left whenever the capacity would be exceeded. -/
def pushCap (N : ℕ) (l : List ℚ) (a : ℚ) : List ℚ :=
  (l ++ [a]).drop ((l ++ [a]).length - N)

/-- Speedometer.add (lines 143-152); t is the time.time() stamp. -/
def Speedometer.add (s : Speedometer) (t yn : ℚ) : Speedometer :=
  if s.discards t yn then s
  else { s with x := pushCap s.N s.x t, y := pushCap s.N s.y yn }

/-- xm of line 159 (n is len(self.x)). -/
def Speedometer.xm (s : Speedometer) : ℚ := s.x.sum / (s.x.length : ℚ)

/-- ym of line 160 (the divisor n is still len(self.x)). -/
def Speedometer.ym (s : Speedometer) : ℚ := s.y.sum / (s.x.length : ℚ)

/-- nom of line 161.  The Python sum indexes x and y over range(len(x));
the zip formulation is identical whenever both deques have the same length,
which add guarantees (they are appended to and evicted from in lockstep). -/
def Speedometer.nom (s : Speedometer) : ℚ :=
  ((s.x.zip s.y).map (fun p => (p.1 - s.xm) * (p.2 - s.ym))).sum

/-- den of line 162. -/
def Speedometer.den (s : Speedometer) : ℚ :=
  (s.x.map (fun xi => (xi - s.xm) ^ 2)).sum

/-- Speedometer.speed (lines 154-163).  Raising ValueError for n < 2 and
ZeroDivisionError for a zero denominator are modelled as Except errors. -/
def Speedometer.speed (s : Speedometer) : Except String ℚ :=
  if s.x.length < 2 then .error ("need at least two data points")
  else if s.den = 0 then .error ("float division by zero")
  else .ok (s.nom / s.den)

/-- States reachable from the freshly constructed Speedometer by add calls:
exactly the states whose samples were all retained through add. -/
inductive Reachable : Speedometer → Prop
  | base : Reachable Speedometer.start
  | step (s : Speedometer) (t yn : ℚ) : Reachable s → Reachable (s.add t yn)

/-- The ordinary least-squares slope written as the specification states it:
slope = (sum of (xi - xbar) * (yi - ybar)) / (sum of (xi - xbar) squared),
with the means taken over all retained samples. -/
def mean (l : List ℚ) : ℚ :=
  (∑ i in Finset.range l.length, l.getD i 0) / (l.length : ℚ)

/-- Specification-side OLS slope over indexed samples (xi, yi). -/
def olsSlope (xs ys : List ℚ) : ℚ :=
  (∑ i in Finset.range xs.length, (xs.getD i 0 - mean xs) * (ys.getD i 0 - mean ys)) /
  (∑ i in Finset.range xs.length, (xs.getD i 0 - mean xs) ^ 2)

/-! ### ETA computation of the monitored loop body (lines 187-194)

Python:
  try:
      t_remaining = (duration-position)/speedometer.speed()
      t_remaining = '%d:%02d' % (t_remaining//60, t_remaining%60)
      print(... 'progress=%.1f%% ETA=%s' ...)
  except (ValueError, ZeroDivisionError):
      pass

Python float floor-division and modulo: a//b = floor(a/b) and
a % b = a - b*floor(a/b); the %d conversions truncate, which on the
already-integral quotient and the nonnegative remainder equals floor. -/

/-- Python floor division a//60 for floats, at exact rationals. -/
def pyFloorDiv (a b : ℚ) : ℤ := Int.floor (a / b)

/-- Python modulo a % b for floats, at exact rationals. -/
def pyMod (a b : ℚ) : ℚ := a - b * (Int.floor (a / b) : ℚ)

/-- The rendered ETA pair (minutes, seconds) of line 189. -/
def renderETA (t : ℚ) : ℤ × ℤ :=
  (pyFloorDiv t 60, Int.floor (pyMod t 60))

/-- One ETA attempt of the monitored loop: none when the except clause of
line 193 swallows a ValueError (fewer than two samples, zero regression
denominator) or a ZeroDivisionError (speed() returned exactly 0.0); otherwise
the rendered ETA, whatever its sign. -/
def etaStep (duration position : ℚ) (sp : Speedometer) : Option (ℤ × ℤ) :=
  match sp.speed with
  | .error _ => none
  | .ok v => if v = 0 then none else some (renderETA ((duration - position) / v))

/-! ### Progress parsing (lines 170, 176, 180-183)

Python:
  output_buffer = collections.deque(maxlen=256)
  ...
  output_buffer.extend( avconv.stderr.read(16) )
  position = re.search(r'.*time=(\d+.\d+) b', ''.join(output_buffer))
  if position is not None:
      position = float(position.group(1))

This is Python 2: the buffer holds bytes, \d is [0-9], and the dot of the
pattern matches any byte except the newline.  re.search of a pattern that
starts with a greedy dot-star finds the first newline-separated line that
contains a match of time=(\d+.\d+) b and, within that line, the match that
starts last; the captured group is produced by backtracking that prefers the
longest first digit run, then (the single wildcard byte being fixed) the
longest second digit run, and requires a space followed by the letter b
immediately after the group. -/

/-- The literal chars of "time=". -/
def timeEq : List Char := ['t', 'i', 'm', 'e', '=']

/-- The literal chars of " b" that must follow the captured group. -/
def spB : List Char := [' ', 'b']

/-- Does l start with the literal p? -/
def hasPfx : List Char → List Char → Bool
  | [], _ => true
  | _ :: _, [] => false
  | p :: ps, c :: cs => p == c && hasPfx ps cs

/-- Maximal digit run at the head: returns (run, remainder). -/
def digitRun : List Char → List Char × List Char
  | [] => ([], [])
  | c :: t =>
    if c.isDigit then
      match digitRun t with
      | (d, r) => (c :: d, r)
    else ([], c :: t)

/-- Backtracking for the second digit group followed by " b".  bRev is the
reversed current candidate (greedy: the full run first); on failure its last
digit is handed back to the remainder. -/
def goSecondAux : List Char → List Char → Option (List Char)
  | [], _ => none
  | c :: brest, r =>
    if hasPfx spB r then some ((c :: brest).reverse)
    else goSecondAux brest (c :: r)

/-- Attempt a match whose first digit group is exactly a, with r the text
after it: one wildcard byte (not a newline), then a digit run, then " b". -/
def tryHere (a : List Char) : List Char → Option (List Char)
  | [] => none
  | c :: r1 =>
    if c = '\n' then none
    else
      match goSecondAux (digitRun r1).1.reverse (digitRun r1).2 with
      | some b => some (a ++ c :: b)
      | none => none

/-- Backtracking for the first digit group: aRev is the reversed current
candidate (greedy: the full run first); on failure its last digit becomes the
wildcard byte of a shorter attempt. -/
def goFirstAux : List Char → List Char → Option (List Char)
  | [], _ => none
  | c0 :: arest, r =>
    match tryHere ((c0 :: arest).reverse) r with
    | some g => some g
    | none => goFirstAux arest (c0 :: r)

/-- Match of time=(\d+.\d+) b anchored at the head of l, returning the
captured group. -/
def subAt (l : List Char) : Option (List Char) :=
  if hasPfx timeEq l then
    goFirstAux (digitRun (l.drop 5)).1.reverse (digitRun (l.drop 5)).2
  else none

/-- The anchored match that starts last in l (the greedy leading dot-star
consumes as much of the line as possible). -/
def lastSub : List Char → Option (List Char)
  | [] => none
  | c :: t =>
    match lastSub t with
    | some g => some g
    | none => subAt (c :: t)

/-- Split on newlines (the wildcard of the pattern cannot cross them). -/
def linesOf : List Char → List (List Char)
  | [] => [[]]
  | c :: t =>
    if c = '\n' then [] :: linesOf t
    else
      match linesOf t with
      | [] => [[c]]
      | ln :: rest => (c :: ln) :: rest

/-- First line that contains a match, answering with that line's last match. -/
def firstSome : List (List Char) → Option (List Char)
  | [] => none
  | ln :: rest =>
    match lastSub ln with
    | some g => some g
    | none => firstSome rest

/-- group(1) of re.search(r'.*time=(\d+.\d+) b', buf), or none. -/
def searchGroup (buf : List Char) : Option (List Char) :=
  firstSome (linesOf buf)

/-- Numeric value of a digit string. -/
def natOfDigits (l : List Char) : ℕ :=
  l.foldl (fun n c => 10 * n + (c.toNat - 48)) 0

/-- Python 2 float() applied to a captured group.  A group always has the
shape digits, one wildcard byte, digits (the wildcard may itself be a digit,
merging everything into one run).  float succeeds on a plain digit run, on
digits.digits, and on scientific notation digitsEdigits; anything else
raises ValueError (modelled none). -/
def groupFloat (g : List Char) : Option ℚ :=
  match digitRun g with
  | (d1, r) =>
    if d1 = [] then none
    else
      match r with
      | [] => some ((natOfDigits d1 : ℚ))
      | c :: d2 =>
        if d2 = [] then none
        else if !(d2.all Char.isDigit) then none
        else if c = '.' then
          some ((natOfDigits d1 : ℚ) + (natOfDigits d2 : ℚ) / (10 : ℚ) ^ d2.length)
        else if c = 'e' ∨ c = 'E' then
          some ((natOfDigits d1 : ℚ) * (10 : ℚ) ^ natOfDigits d2)
        else none

/-- Lines 180-183: the regex search followed by float(group(1)).  A float
conversion failure is an uncaught ValueError that kills the script (the
try of line 187 has not started yet), modelled as .error. -/
def positionOf (buf : List Char) : Except String (Option ℚ) :=
  match searchGroup buf with
  | none => .ok none
  | some g =>
    match groupFloat g with
    | some v => .ok (some v)
    | none => .error ("ValueError: invalid literal for float")

/-! Specification-side marker predicates, written from the claim's words,
to be compared with the code-side search. -/

/-- Head test for the claim's marker "time=(digits).(digits)": a literal
period between the two digit runs.  Returns the text after the marker. -/
def dotMarkerHead (l : List Char) : Option (List Char) :=
  if hasPfx timeEq l then
    match digitRun (l.drop 5) with
    | (d1, r1) =>
      if d1 = [] then none
      else
        match r1 with
        | [] => none
        | c :: r2 =>
          if c = '.' then
            match digitRun r2 with
            | (d2, r3) => if d2 = [] then none else some r3
          else none
  else none

/-- Claim-side scan: does the buffer contain a marker time=(digits).(digits)
that is later followed in the buffer by a letter b? -/
def specDotMarker : List Char → Bool
  | [] => false
  | c :: t =>
    (match dotMarkerHead (c :: t) with
     | some rest => rest.contains 'b'
     | none => false) || specDotMarker t

/-- Declarative characterization of what the code-side search accepts: some
occurrence of time=, a nonempty digit run, one non-newline byte, a nonempty
digit run, and immediately the two bytes " b". -/
def LooseMarker (buf : List Char) : Prop :=
  ∃ pre d1 c d2 rest,
    buf = pre ++ timeEq ++ d1 ++ [c] ++ d2 ++ spB ++ rest ∧
    d1 ≠ [] ∧ d2 ≠ [] ∧ (∀ ch ∈ d1, ch.isDigit) ∧ (∀ ch ∈ d2, ch.isDigit) ∧
    c ≠ '\n'

/-! ### The monitored loop (lines 166-196)

Python:
  if duration is None: # no output monitoring
      ret = avconv.wait()
  else:
      ret = None
      output_buffer = collections.deque(maxlen=256)
      print('  progress=?')
      speedometer = Speedometer()
      while(ret is None):
          ret = avconv.poll()
          output_buffer.extend( avconv.stderr.read(16) )
          position = re.search(r'.*time=(\d+.\d+) b', ''.join(output_buffer))
          if position is not None:
              position = float(position.group(1))
              progress = position/duration
              speedometer.add(position)
              try:
                  t_remaining = (duration-position)/speedometer.speed()
                  ...print progress and ETA...
              except (ValueError, ZeroDivisionError):
                  pass
      print(CUR_UP, ERASE_LINE, 'progress=100%')

The external process is an input of the model: each iteration is driven by
the poll() answer, the chunk produced by stderr.read(16) and the time.time()
stamp the Speedometer would observe. -/

/-- Observable output of one loop iteration / of the epilogue. -/
inductive OutEvent where
  | progressETA (progress : ℚ) (etaMin etaSec : ℤ)
  | progress100
deriving DecidableEq

/-- Inputs consumed by one loop iteration. -/
structure IterInput where
  poll : Option ℤ
  chunk : List Char
  now : ℚ
deriving DecidableEq

/-- Mutable loop state: the bounded tail buffer and the Speedometer. -/
structure LoopState where
  buffer : List Char
  sp : Speedometer
deriving DecidableEq

/-- deque(maxlen=256) of bytes: keep the most recent 256. -/
def takeCap (l : List Char) : List Char := l.drop (l.length - 256)

/-- One iteration body (lines 175-194): read, parse, feed the speedometer,
maybe render a progress/ETA line.  A float ValueError is fatal. -/
def iterBody (duration : ℚ) (st : LoopState) (inp : IterInput) :
    Except String (LoopState × Option OutEvent) :=
  let buf := takeCap (st.buffer ++ inp.chunk)
  match positionOf buf with
  | .error e => .error e
  | .ok none => .ok ({ buffer := buf, sp := st.sp }, none)
  | .ok (some p) =>
    let sp := st.sp.add inp.now p
    match etaStep duration p sp with
    | none => .ok ({ buffer := buf, sp := sp }, none)
    | some md =>
      .ok ({ buffer := buf, sp := sp }, some (.progressETA (p / duration) md.1 md.2))

/-- The while loop (lines 174-194): ret is set from poll() at the top of the
body, the body always runs to completion, and the loop condition is tested
again only afterwards.  Returns ret, the final state, the number of
iterations executed and the rendered lines.  An exhausted input script means
the loop is still running (ret none). -/
def runLoop (duration : ℚ) :
    List IterInput → LoopState → Except String (Option ℤ × LoopState × ℕ × List OutEvent)
  | [], st => .ok (none, st, 0, [])
  | inp :: rest, st =>
    match iterBody duration st inp with
    | .error e => .error e
    | .ok (st1, ev) =>
      match inp.poll with
      | some c => .ok (some c, st1, 1, ev.toList)
      | none =>
        match runLoop duration rest st1 with
        | .error e => .error e
        | .ok (ret, st2, k, evs) => .ok (ret, st2, k + 1, ev.toList ++ evs)

/-- The whole monitored branch: fresh buffer and Speedometer, the loop, and
the final forced progress=100% line of line 196 once the loop has exited. -/
def monitoredRun (duration : ℚ) (inputs : List IterInput) :
    Except String (Option ℤ × ℕ × List OutEvent) :=
  match runLoop duration inputs { buffer := [], sp := Speedometer.start } with
  | .error e => .error e
  | .ok (ret, _, k, evs) =>
    .ok (ret, k,
      evs ++ (match ret with | some _ => [OutEvent.progress100] | none => []))

/-- Iteration inputs of a process whose diagnostic stream content is S:
each stderr.read(16) yields the next 16 bytes, iteration i happens at
wall-clock t0 + i. -/
def mkInputs : List (Option ℤ) → List Char → ℚ → List IterInput
  | [], _, _ => []
  | p :: ps, S, t0 => ⟨p, S.take 16, t0⟩ :: mkInputs ps (S.drop 16) (t0 + 1)

/-! ## Helper lemmas -/

theorem pushCap_length (N : ℕ) (l : List ℚ) (a : ℚ) :
    (pushCap N l a).length = min (l.length + 1) N := by
  simp [pushCap]
  omega

theorem pushCap_full (N : ℕ) (l : List ℚ) (a : ℚ) (h : l.length = N) (hN : 1 ≤ N) :
    pushCap N l a = l.tail ++ [a] := by
  unfold pushCap
  have h1 : (l ++ [a]).length - N = 1 := by simp [h]
  rw [h1, List.drop_append_of_le_length (by omega), List.drop_one]

theorem pushCap_small (N : ℕ) (l : List ℚ) (a : ℚ) (h : l.length < N) :
    pushCap N l a = l ++ [a] := by
  unfold pushCap
  have h1 : (l ++ [a]).length - N = 0 := by simp; omega
  rw [h1, List.drop_zero]

theorem chainQ_drop (R : ℚ → ℚ → Prop) :
    ∀ (k : ℕ) (l : List ℚ), l.Chain' R → (l.drop k).Chain' R := by
  intro k
  induction k with
  | zero => intro l hl; simpa using hl
  | succ k ih =>
    intro l hl
    have h1 : l.drop (k + 1) = l.tail.drop k := by
      rw [← List.drop_one, List.drop_drop, Nat.add_comm]
    rw [h1]
    exact ih l.tail hl.tail

theorem reachable_inv (s : Speedometer) (hs : Reachable s) :
    s.N = 100 ∧ s.delta = 1/10 ∧ s.epsilon = 1/10 ∧
    s.x.length = s.y.length ∧
    s.x.Chain' (fun a b => 1/10 ≤ abs (b - a)) := by
  induction hs with
  | base => refine ⟨rfl, rfl, rfl, rfl, ?_⟩; simp [Speedometer.start]
  | step s t yn hr ih =>
    obtain ⟨hN, hd, he, hlen, hch⟩ := ih
    unfold Speedometer.add
    split
    · exact ⟨hN, hd, he, hlen, hch⟩
    · rename_i hdisc
      refine ⟨hN, hd, he, by simp [pushCap_length, hlen], ?_⟩
      have happ : (s.x ++ [t]).Chain' (fun a b => 1/10 ≤ abs (b - a)) := by
        rw [List.chain'_append]
        refine ⟨hch, List.chain'_singleton t, ?_⟩
        intro a ha b hb
        simp only [List.head?_cons, Option.mem_def, Option.some.injEq] at hb
        subst hb
        have hxne : s.x ≠ [] := by
          intro hnil
          rw [hnil] at ha
          simp at ha
        have hlast : s.x.getLastD 0 = a := by
          rw [List.getLastD_eq_getLast?]
          simp only [Option.mem_def] at ha
          rw [ha]
          rfl
        have hnd : ¬ (s.x ≠ [] ∧ abs (t - s.x.getLastD 0) < s.delta) := by
          intro hcon
          exact hdisc (Or.inl hcon)
        rw [not_and] at hnd
        have := hnd hxne
        rw [not_lt] at this
        rw [hlast] at this
        rw [hd] at this
        exact this
      exact chainQ_drop _ _ _ happ

theorem reachable_den_pos (s : Speedometer) (hs : Reachable s) (h2 : 2 ≤ s.x.length) :
    0 < s.den := by
  obtain ⟨-, -, -, -, hch⟩ := reachable_inv s hs
  obtain ⟨a, l1, hx⟩ : ∃ a l1, s.x = a :: l1 := by
    cases hsx : s.x with
    | nil => rw [hsx] at h2; simp at h2
    | cons a l1 => exact ⟨a, l1, rfl⟩
  obtain ⟨b, l2, hl1⟩ : ∃ b l2, l1 = b :: l2 := by
    cases hsl : l1 with
    | nil => rw [hx, hsl] at h2; simp at h2
    | cons b l2 => exact ⟨b, l2, rfl⟩
  subst hl1
  rw [hx] at hch
  have hab : a ≠ b := by
    have hR := (List.chain'_cons.mp hch).1
    intro heq
    rw [heq, sub_self, abs_zero] at hR
    norm_num at hR
  have hne : a - s.xm ≠ 0 ∨ b - s.xm ≠ 0 := by
    by_contra hcon
    push_neg at hcon
    obtain ⟨h1, h2'⟩ := hcon
    exact hab ((sub_eq_zero.mp h1).trans (sub_eq_zero.mp h2').symm)
  have hrest : 0 ≤ (l2.map (fun xi => (xi - s.xm) ^ 2)).sum := by
    apply List.sum_nonneg
    intro z hz
    simp only [List.mem_map] at hz
    obtain ⟨xi, -, rfl⟩ := hz
    exact sq_nonneg _
  have hpos : 0 < (a - s.xm) ^ 2 + (b - s.xm) ^ 2 := by
    rcases hne with h | h
    · have := pow_two_pos_of_ne_zero h
      have := sq_nonneg (b - s.xm)
      linarith
    · have := pow_two_pos_of_ne_zero h
      have := sq_nonneg (a - s.xm)
      linarith
  unfold Speedometer.den
  rw [hx]
  simp only [List.map_cons, List.sum_cons]
  linarith

theorem listSum_getD (l : List ℚ) :
    l.sum = ∑ i in Finset.range l.length, l.getD i 0 := by
  induction l with
  | nil => simp
  | cons a t ih =>
    rw [List.sum_cons, List.length_cons, Finset.sum_range_succ']
    simp only [List.getD_cons_succ, List.getD_cons_zero]
    rw [← ih, add_comm]

theorem mapSum_getD (f : ℚ → ℚ) (l : List ℚ) :
    (l.map f).sum = ∑ i in Finset.range l.length, f (l.getD i 0) := by
  induction l with
  | nil => simp
  | cons a t ih =>
    rw [List.map_cons, List.sum_cons, List.length_cons, Finset.sum_range_succ']
    simp only [List.getD_cons_succ, List.getD_cons_zero]
    rw [← ih, add_comm]

theorem zipSum_getD (g : ℚ × ℚ → ℚ) :
    ∀ (x y : List ℚ), x.length = y.length →
      ((x.zip y).map g).sum = ∑ i in Finset.range x.length, g (x.getD i 0, y.getD i 0) := by
  intro x
  induction x with
  | nil => intro y h; simp
  | cons a t ih =>
    intro y h
    cases y with
    | nil => simp at h
    | cons b u =>
      rw [List.zip_cons_cons, List.map_cons, List.sum_cons, List.length_cons,
        Finset.sum_range_succ']
      simp only [List.getD_cons_succ, List.getD_cons_zero]
      rw [← ih u (by simpa using h), add_comm]

/-! ## Claim theorems -/

/-- C1, counterexample: the claim states that whenever a bitrate is requested
the effective bitrate is min(requested, source); but a requested bitrate of 0
is falsy in Python, so the default path is taken and resolve(1, Some 0) gives
min(128, 1) = 1, not min(0, 1) = 0. -/
theorem C1_cex :
    resolveEffective (some 0) 1 = 1 ∧ resolveEffective (some 0) 1 ≠ min 0 1 := by
  decide

/-- C1 (amended): for every source bitrate at least 1, the effective bitrate
is min(requested, source) when a nonzero bitrate is requested; when the
request is absent or zero (falsy) it is min(128, source); in every case it
never exceeds the source bitrate. -/
theorem C1_thm (src : ℤ) (_hsrc : 1 ≤ src) (req : Option ℤ) :
    (∀ r, req = some r → r ≠ 0 → resolveEffective req src = min r src) ∧
    ((req = none ∨ req = some 0) → resolveEffective req src = min 128 src) ∧
    resolveEffective req src ≤ src := by
  refine ⟨?_, ?_, min_le_right _ _⟩
  · rintro r rfl hr
    simp [resolveEffective, preClampBitrate, pyFalsy, hr]
  · rintro (rfl | rfl) <;>
      simp [resolveEffective, preClampBitrate, pyFalsy, defaultBitrate, int128]

/-- C1, witness: the amended theorem applied at source 256, request 64. -/
theorem C1_wit :
    (1 : ℤ) ≤ 256 ∧
    ((∀ r, (some 64 : Option ℤ) = some r → r ≠ 0 →
        resolveEffective (some 64) 256 = min r 256) ∧
     (((some 64 : Option ℤ) = none ∨ (some 64 : Option ℤ) = some 0) →
        resolveEffective (some 64) 256 = min 128 256) ∧
     resolveEffective (some 64) 256 ≤ 256) :=
  ⟨by decide, C1_thm 256 (by decide) (some 64)⟩

/-- C2: forced is exactly the force flag or an effective bitrate that differs
from the source bitrate, and the nothing-to-do short circuit (exit status 0,
no process spawned) fires exactly when forced is false and the extension does
not match the lossy set. -/
theorem C2_thm (f : Bool) (b bs : ℤ) (e : Bool) (spawn : Except Unit ℤ) :
    (forceFlag f b bs = true ↔ (f = true ∨ b ≠ bs)) ∧
    (earlyExit (forceFlag f b bs) e = some 0 ↔
      (forceFlag f b bs = false ∧ e = false)) ∧
    (earlyExit (forceFlag f b bs) e = none ↔
      (forceFlag f b bs = true ∨ e = true)) ∧
    (earlyExit (forceFlag f b bs) e = some 0 →
      driverRun (forceFlag f b bs) e spawn = (0, false, false)) := by
  refine ⟨by simp [forceFlag, Bool.or_eq_true, bne_iff_ne], ?_⟩
  cases hF : forceFlag f b bs <;> cases e <;>
    simp [earlyExit, nothingToDo, driverRun, hF]

/-- C2, witness: the theorem applied at force flag false, bitrates 128/128,
extension mismatch: the short circuit fires with status 0. -/
theorem C2_wit :
    (forceFlag false 128 128 = true ↔ (false = true ∨ (128 : ℤ) ≠ 128)) ∧
    (earlyExit (forceFlag false 128 128) false = some 0 ↔
      (forceFlag false 128 128 = false ∧ false = false)) ∧
    (earlyExit (forceFlag false 128 128) false = none ↔
      (forceFlag false 128 128 = true ∨ false = true)) ∧
    (earlyExit (forceFlag false 128 128) false = some 0 →
      driverRun (forceFlag false 128 128) false (.ok 0) = (0, false, false)) :=
  C2_thm false 128 128 false (.ok 0)

/-- C7: when a process is launched and observed, the script's exit status is
the process's exit status; a spawn failure prints the fatal diagnostic and
exits 1 (nonzero) with no transcoding; the nothing-to-do path exits 0. -/
theorem C7_thm (f e : Bool) (spawn : Except Unit ℤ) :
    ((f || e) = false → driverRun f e spawn = (0, false, false)) ∧
    (∀ c, spawn = .ok c → (f || e) = true → driverRun f e spawn = (c, true, false)) ∧
    (spawn = .error () → (f || e) = true →
      driverRun f e spawn = (1, false, true) ∧ (driverRun f e spawn).1 ≠ 0) := by
  cases hfe : f || e <;> cases spawn <;>
    simp [driverRun, earlyExit, nothingToDo, hfe]

/-- C7, witness: the theorem applied with forced transcoding and a process
that exits with status 3. -/
theorem C7_wit :
    ((true || false) = false → driverRun true false (.ok 3) = (0, false, false)) ∧
    (∀ c, (.ok 3 : Except Unit ℤ) = .ok c → (true || false) = true →
      driverRun true false (.ok 3) = (c, true, false)) ∧
    ((.ok 3 : Except Unit ℤ) = .error () → (true || false) = true →
      driverRun true false (.ok 3) = (1, false, true) ∧
        (driverRun true false (.ok 3)).1 ≠ 0) :=
  C7_thm true false (.ok 3)

/-- C10: with no explicit bitrate argument the pre-clamp bitrate is always
exactly 128: int(128) never raises, so the KeyError handler falling back to
the source bitrate is dead code and the result is independent of the source
bitrate (no environment-driven override can take effect). -/
theorem C10_thm (src src' : ℤ) :
    defaultBitrate src = 128 ∧
    preClampBitrate none src = 128 ∧
    preClampBitrate none src = preClampBitrate none src' ∧
    resolveEffective none src = min 128 src := by
  simp [defaultBitrate, int128, preClampBitrate, pyFalsy, resolveEffective]

/-- C3: on every Speedometer state whose samples were retained through add,
speed() with at least two retained samples returns exactly the ordinary
least-squares slope of position over time, and with fewer than two samples it
raises the insufficient-data ValueError and never returns a number. -/
theorem C3_thm (s : Speedometer) (hs : Reachable s) :
    (2 ≤ s.x.length → s.speed = .ok (olsSlope s.x s.y)) ∧
    (s.x.length < 2 → s.speed = .error ("need at least two data points")) := by
  constructor
  · intro h2
    have hden := reachable_den_pos s hs h2
    obtain ⟨-, -, -, hlen, -⟩ := reachable_inv s hs
    unfold Speedometer.speed
    rw [if_neg (by omega), if_neg (ne_of_gt hden)]
    have hxm : s.xm = mean s.x := by
      unfold Speedometer.xm mean
      rw [listSum_getD]
    have hym : s.ym = mean s.y := by
      unfold Speedometer.ym mean
      rw [listSum_getD, hlen]
    have hnom : s.nom =
        ∑ i in Finset.range s.x.length,
          (s.x.getD i 0 - mean s.x) * (s.y.getD i 0 - mean s.y) := by
      unfold Speedometer.nom
      rw [zipSum_getD _ _ _ hlen, hxm, hym]
    have hden2 : s.den =
        ∑ i in Finset.range s.x.length, (s.x.getD i 0 - mean s.x) ^ 2 := by
      unfold Speedometer.den
      rw [mapSum_getD, hxm]
    rw [hnom, hden2]
    rfl
  · intro h2
    unfold Speedometer.speed
    rw [if_pos h2]

/-- C3, witness: the theorem applied to the reachable state with samples
(0,0) and (1,1); its slope is 1. -/
theorem C3_wit :
    ((2 ≤ ((Speedometer.start.add 0 0).add 1 1).x.length →
        ((Speedometer.start.add 0 0).add 1 1).speed =
          .ok (olsSlope ((Speedometer.start.add 0 0).add 1 1).x
            ((Speedometer.start.add 0 0).add 1 1).y)) ∧
      (((Speedometer.start.add 0 0).add 1 1).x.length < 2 →
        ((Speedometer.start.add 0 0).add 1 1).speed =
          .error ("need at least two data points"))) ∧
    ((Speedometer.start.add 0 0).add 1 1).x.length = 2 ∧
    olsSlope ((Speedometer.start.add 0 0).add 1 1).x
      ((Speedometer.start.add 0 0).add 1 1).y = 1 :=
  ⟨C3_thm _ (Reachable.step _ 1 1 (Reachable.step _ 0 0 Reachable.base)),
   by norm_num [Speedometer.add, Speedometer.discards, Speedometer.start, pushCap],
   by norm_num [olsSlope, mean, Speedometer.add, Speedometer.discards,
     Speedometer.start, pushCap, Finset.sum_range_succ, Finset.sum_range_zero]⟩

/-- C4: a new sample is retained exactly when there is no previous sample or
the time distance to the last retained sample is at least delta and the
position distance is at least epsilon; lengths stay bounded by the capacity
100, a retained insertion into a full window evicts the oldest sample, and
two adds with the same position value retain only one sample. -/
theorem C4_thm (s : Speedometer) (t yn : ℚ)
    (hxy : s.x.length = s.y.length) (hN : s.N = 100) (hle : s.x.length ≤ 100) :
    (¬ s.discards t yn ↔
      (s.x = [] ∨ (s.delta ≤ abs (t - s.x.getLastD 0) ∧
        s.epsilon ≤ abs (yn - s.y.getLastD 0)))) ∧
    ((s.add t yn).x.length ≤ 100 ∧ (s.add t yn).y.length ≤ 100) ∧
    (¬ s.discards t yn → (s.add t yn).x.length = min (s.x.length + 1) 100) ∧
    (s.x.length = 100 → ¬ s.discards t yn →
      (s.add t yn).x = s.x.tail ++ [t] ∧ (s.add t yn).y = s.y.tail ++ [yn]) ∧
    (∀ t0 t1 y0, (Speedometer.start.add t0 y0).add t1 y0 =
      Speedometer.start.add t0 y0) := by
  have hxyiff : s.x = [] ↔ s.y = [] := by
    rw [← List.length_eq_zero, ← List.length_eq_zero, hxy]
  refine ⟨?_, ?_, ?_, ?_, ?_⟩
  · simp only [Speedometer.discards, not_or, not_and, not_lt]
    constructor
    · rintro ⟨h1, h2⟩
      by_cases hx : s.x = []
      · exact Or.inl hx
      · exact Or.inr ⟨h1 hx, h2 (fun hy => hx (hxyiff.mpr hy))⟩
    · rintro (hx | ⟨h1, h2⟩)
      · exact ⟨fun hne => absurd hx hne, fun hne => absurd (hxyiff.mp hx) hne⟩
      · exact ⟨fun _ => h1, fun _ => h2⟩
  · unfold Speedometer.add
    split
    · exact ⟨hle, hxy ▸ hle⟩
    · constructor <;> simp [pushCap_length, hN, hxy]
  · intro hk
    unfold Speedometer.add
    rw [if_neg hk]
    simp [pushCap_length, hN]
  · intro h100 hk
    unfold Speedometer.add
    rw [if_neg hk]
    constructor
    · simp only
      rw [hN, pushCap_full 100 s.x t h100 (by norm_num)]
    · simp only
      rw [hN, pushCap_full 100 s.y yn (by omega) (by norm_num)]
  · intro t0 t1 y0
    have h1 : Speedometer.start.add t0 y0 =
        { Speedometer.start with x := [t0], y := [y0] } := by
      unfold Speedometer.add
      rw [if_neg (by simp [Speedometer.discards, Speedometer.start])]
      simp [pushCap, Speedometer.start]
    rw [h1]
    unfold Speedometer.add
    rw [if_pos]
    right
    refine ⟨by simp, ?_⟩
    simp [Speedometer.start, sub_self, abs_zero]

/-- C4, witness: the theorem applied to the one-sample state (0,0) with a new
sample at time 1, position 1. -/
theorem C4_wit :
    ((¬ (Speedometer.start.add 0 0).discards 1 1 ↔
      ((Speedometer.start.add 0 0).x = [] ∨
        ((Speedometer.start.add 0 0).delta ≤
            abs (1 - (Speedometer.start.add 0 0).x.getLastD 0) ∧
          (Speedometer.start.add 0 0).epsilon ≤
            abs (1 - (Speedometer.start.add 0 0).y.getLastD 0)))) ∧
    (((Speedometer.start.add 0 0).add 1 1).x.length ≤ 100 ∧
      ((Speedometer.start.add 0 0).add 1 1).y.length ≤ 100) ∧
    (¬ (Speedometer.start.add 0 0).discards 1 1 →
      ((Speedometer.start.add 0 0).add 1 1).x.length =
        min ((Speedometer.start.add 0 0).x.length + 1) 100) ∧
    ((Speedometer.start.add 0 0).x.length = 100 →
      ¬ (Speedometer.start.add 0 0).discards 1 1 →
      ((Speedometer.start.add 0 0).add 1 1).x =
          (Speedometer.start.add 0 0).x.tail ++ [1] ∧
        ((Speedometer.start.add 0 0).add 1 1).y =
          (Speedometer.start.add 0 0).y.tail ++ [1]) ∧
    (∀ t0 t1 y0, (Speedometer.start.add t0 y0).add t1 y0 =
      Speedometer.start.add t0 y0)) :=
  C4_thm (Speedometer.start.add 0 0) 1 1 (by decide) (by decide) (by decide)

/-- C9 (amended): on states whose samples were all retained through add,
consecutive retained samples have timestamps at least delta = 0.1 apart, so
with at least two samples the regression denominator is strictly positive and
speed() never divides by zero.  (The claim's stronger assertion that any two
retained samples are at least delta apart fails; see the counterexample.) -/
theorem C9_thm (s : Speedometer) (hs : Reachable s) :
    s.x.Chain' (fun a b => 1/10 ≤ abs (b - a)) ∧
    (2 ≤ s.x.length → 0 < s.den ∧ ∃ v, s.speed = .ok v) := by
  obtain ⟨-, -, -, -, hch⟩ := reachable_inv s hs
  refine ⟨hch, fun h2 => ?_⟩
  have hden := reachable_den_pos s hs h2
  refine ⟨hden, s.nom / s.den, ?_⟩
  unfold Speedometer.speed
  rw [if_neg (by omega), if_neg (ne_of_gt hden)]

/-- C9, witness: the amended theorem applied to the reachable two-sample
state with samples at times 0 and 1. -/
theorem C9_wit :
    ((Speedometer.start.add 0 0).add 1 10).x.Chain'
        (fun a b => 1/10 ≤ abs (b - a)) ∧
    (2 ≤ ((Speedometer.start.add 0 0).add 1 10).x.length →
      0 < ((Speedometer.start.add 0 0).add 1 10).den ∧
      ∃ v, ((Speedometer.start.add 0 0).add 1 10).speed = .ok v) :=
  C9_thm _ (Reachable.step _ 1 10 (Reachable.step _ 0 0 Reachable.base))

/-- C9, counterexample: the wall clock is not assumed monotone, and add only
compares against the last retained sample, so after retained adds at times
0, 1 and 0 the first and third samples have equal timestamps — two retained
samples whose distance is 0, not at least delta. -/
theorem C9_cex :
    Reachable (((Speedometer.start.add 0 0).add 1 10).add 0 20) ∧
    (((Speedometer.start.add 0 0).add 1 10).add 0 20).x = [0, 1, 0] ∧
    ¬ ((1 : ℚ)/10 ≤
      abs ((((Speedometer.start.add 0 0).add 1 10).add 0 20).x.getD 2 0 -
        (((Speedometer.start.add 0 0).add 1 10).add 0 20).x.getD 0 0)) :=
  ⟨Reachable.step _ 0 20 (Reachable.step _ 1 10 (Reachable.step _ 0 0 Reachable.base)),
   by norm_num [Speedometer.add, Speedometer.discards, Speedometer.start, pushCap],
   by norm_num [Speedometer.add, Speedometer.discards, Speedometer.start, pushCap]⟩

/-- C6 (amended): an ETA attempt is suppressed exactly when speed() raises
(insufficient data or zero denominator ValueError/ZeroDivisionError) or
returns exactly zero; whenever speed() returns a nonzero value the ETA is
rendered, whatever its sign — a negative projected ETA is not suppressed. -/
theorem C6_thm (d p : ℚ) (sp : Speedometer) :
    (etaStep d p sp = none ↔ ((∃ e, sp.speed = .error e) ∨ sp.speed = .ok 0)) ∧
    (∀ v, sp.speed = .ok v → v ≠ 0 →
      etaStep d p sp = some (renderETA ((d - p) / v))) := by
  constructor
  · cases hsp : sp.speed with
    | error e => simp [etaStep, hsp]
    | ok v => by_cases hv : v = 0 <;> simp [etaStep, hsp, hv]
  · intro v hv hv0
    simp [etaStep, hv, hv0]

/-- C6, witness: the amended theorem applied at duration 100, position 10 and
the two-sample state with slope -10. -/
theorem C6_wit :
    (etaStep 100 10 ((Speedometer.start.add 0 10).add 1 0) = none ↔
      ((∃ e, ((Speedometer.start.add 0 10).add 1 0).speed = .error e) ∨
        ((Speedometer.start.add 0 10).add 1 0).speed = .ok 0)) ∧
    (∀ v, ((Speedometer.start.add 0 10).add 1 0).speed = .ok v → v ≠ 0 →
      etaStep 100 10 ((Speedometer.start.add 0 10).add 1 0) =
        some (renderETA ((100 - 10) / v))) :=
  C6_thm 100 10 ((Speedometer.start.add 0 10).add 1 0)

/-- C6, counterexample: with retained samples (0,10) and (1,0) the slope is
-10, the projected ETA (100-10)/(-10) = -9 is negative, and the iteration
renders it (as -1:51 after Python floor division) instead of suppressing
it. -/
theorem C6_cex :
    ((Speedometer.start.add 0 10).add 1 0).speed = .ok (-10) ∧
    ((100 : ℚ) - 10) / (-10) < 0 ∧
    etaStep 100 10 ((Speedometer.start.add 0 10).add 1 0) = some (-1, 51) := by
  have hsp : ((Speedometer.start.add 0 10).add 1 0).speed = .ok (-10) := by
    norm_num [Speedometer.speed, Speedometer.nom, Speedometer.den, Speedometer.xm,
      Speedometer.ym, Speedometer.add, Speedometer.discards, Speedometer.start, pushCap]
  refine ⟨hsp, by norm_num, ?_⟩
  simp only [etaStep, hsp]
  norm_num [renderETA, pyFloorDiv, pyMod]

theorem mkInputs_map_poll :
    ∀ (polls : List (Option ℤ)) (S : List Char) (t0 : ℚ),
      (mkInputs polls S t0).map (fun i => i.poll) = polls := by
  intro polls
  induction polls with
  | nil => intro S t0; rfl
  | cons p ps ih => intro S t0; simp [mkInputs, ih]

theorem mkInputs_length :
    ∀ (polls : List (Option ℤ)) (S : List Char) (t0 : ℚ),
      (mkInputs polls S t0).length = polls.length := by
  intro polls
  induction polls with
  | nil => intro S t0; rfl
  | cons p ps ih => intro S t0; simp [mkInputs, ih]

theorem runLoop_nil (d : ℚ) (st : LoopState) :
    runLoop d [] st = .ok (none, st, 0, []) := rfl

set_option maxRecDepth 10000 in
theorem runLoop_cons (d : ℚ) (st : LoopState) (inp : IterInput) (rest : List IterInput) :
    runLoop d (inp :: rest) st =
      match iterBody d st inp with
      | .error e => .error e
      | .ok (st1, ev) =>
        match inp.poll with
        | some c => .ok (some c, st1, 1, ev.toList)
        | none =>
          match runLoop d rest st1 with
          | .error e => .error e
          | .ok (ret, st2, k, evs) => .ok (ret, st2, k + 1, ev.toList ++ evs) := rfl

theorem runLoop_exit_spec :
    ∀ (inputs : List IterInput) (d : ℚ) (st : LoopState)
      (c : ℤ) (st' : LoopState) (k : ℕ) (evs : List OutEvent),
      runLoop d inputs st = .ok (some c, st', k, evs) →
      1 ≤ k ∧ k ≤ inputs.length ∧
      (inputs.map (fun i => i.poll)).getD (k - 1) none = some c ∧
      ∀ j, j < k - 1 → (inputs.map (fun i => i.poll)).getD j none = none := by
  intro inputs
  induction inputs with
  | nil =>
    intro d st c st' k evs h
    rw [runLoop_nil] at h
    simp at h
  | cons inp rest ih =>
    intro d st c st' k evs h
    rw [runLoop_cons] at h
    split at h
    · exact absurd h (by simp)
    · rename_i st1 ev hbody
      split at h
      · rename_i c0 hp
        simp only [Except.ok.injEq, Prod.mk.injEq] at h
        obtain ⟨hc, -, hk, -⟩ := h
        refine ⟨by omega, by simp; omega, ?_, fun j hj => by omega⟩
        rw [← hk]
        simp [hp, hc]
      · rename_i hp
        split at h
        · exact absurd h (by simp)
        · rename_i ret2 st2 k2 evs2 hrec
          simp only [Except.ok.injEq, Prod.mk.injEq] at h
          obtain ⟨hret, -, hk, -⟩ := h
          rw [hret] at hrec
          obtain ⟨h1, h2, h3, h4⟩ := ih d st1 c st2 k2 evs2 hrec
          obtain ⟨j2, rfl⟩ : ∃ j2, k2 = j2 + 1 := ⟨k2 - 1, by omega⟩
          refine ⟨by omega, by simp; omega, ?_, ?_⟩
          · rw [← hk]
            simpa [hp] using h3
          · intro j hj
            match j with
            | 0 => simp [hp]
            | j' + 1 =>
              have := h4 j' (by omega)
              simpa using this

/-- C8, counterexample: the loop exits as soon as poll() reports the process
gone, even though only 16 of the 32 stream bytes have been read — the claim
that termination requires no stream data to remain is false.  The final
progress=100% line is still printed. -/
theorem C8_cex :
    monitoredRun 100 (mkInputs [some 0] (List.replicate 32 ('x')) 0) =
      .ok (some 0, 1, [OutEvent.progress100]) ∧
    (List.replicate 32 ('x')).drop (16 * 1) ≠ [] := by
  exact ⟨by rfl, by decide⟩

/-- C8 (amended): the monitored loop terminates exactly at the first
iteration whose poll() reports that the process has exited — regardless of
whether stream data remains unread — propagating that poll's exit status;
after termination the final status line forcing progress to 100% is
rendered. -/
theorem C8_thm (d : ℚ) (polls : List (Option ℤ)) (S : List Char) (t0 : ℚ)
    (c : ℤ) (k : ℕ) (evs : List OutEvent)
    (h : monitoredRun d (mkInputs polls S t0) = .ok (some c, k, evs)) :
    1 ≤ k ∧ k ≤ polls.length ∧ polls.getD (k - 1) none = some c ∧
    (∀ j, j < k - 1 → polls.getD j none = none) ∧
    evs.getLast? = some OutEvent.progress100 := by
  unfold monitoredRun at h
  cases hr : runLoop d (mkInputs polls S t0) { buffer := [], sp := Speedometer.start } with
  | error e => rw [hr] at h; simp at h
  | ok r =>
    obtain ⟨ret, stf, k2, evs2⟩ := r
    rw [hr] at h
    cases ret with
    | none => simp at h
    | some c2 =>
      simp only [Except.ok.injEq, Prod.mk.injEq, Option.some.injEq] at h
      obtain ⟨hc, hk, hevs⟩ := h
      rw [hc, hk] at hr
      obtain ⟨h1, h2, h3, h4⟩ := runLoop_exit_spec _ d _ c _ k evs2 hr
      rw [mkInputs_map_poll] at h3 h4
      rw [mkInputs_length] at h2
      exact ⟨h1, h2, h3, h4, by rw [← hevs, List.getLast?_concat]⟩

/-- C8, witness: a one-iteration run whose first poll reports exit status 0
with an empty stream. -/
theorem C8_wit :
    monitoredRun 100 (mkInputs [some 0] [] 0) =
      .ok (some 0, 1, [OutEvent.progress100]) ∧
    (1 ≤ 1 ∧ 1 ≤ ([some (0:ℤ)]).length ∧
     ([some (0:ℤ)]).getD (1 - 1) none = some 0 ∧
     (∀ j, j < 1 - 1 → ([some (0:ℤ)]).getD j none = none) ∧
     ([OutEvent.progress100]).getLast? = some OutEvent.progress100) :=
  ⟨by rfl, C8_thm 100 [some 0] [] 0 0 1 [OutEvent.progress100] (by rfl)⟩

theorem hasPfx_iff : ∀ (p l : List Char), hasPfx p l = true ↔ ∃ t, l = p ++ t := by
  intro p
  induction p with
  | nil => intro l; simp [hasPfx]
  | cons a ps ih =>
    intro l
    cases l with
    | nil => simp [hasPfx]
    | cons c cs =>
      simp only [hasPfx, Bool.and_eq_true, beq_iff_eq]
      constructor
      · rintro ⟨rfl, h⟩
        obtain ⟨t, rfl⟩ := (ih cs).mp h
        exact ⟨t, rfl⟩
      · rintro ⟨t, ht⟩
        injection ht with h1 h2
        exact ⟨h1.symm, (ih cs).mpr ⟨t, h2⟩⟩

theorem digitRun_spec : ∀ (l d r : List Char), digitRun l = (d, r) →
    l = d ++ r ∧ (∀ c ∈ d, c.isDigit) ∧ (∀ c r2, r = c :: r2 → ¬ c.isDigit) := by
  intro l
  induction l with
  | nil =>
    intro d r h
    simp [digitRun] at h
    obtain ⟨rfl, rfl⟩ := h
    refine ⟨rfl, by simp, ?_⟩
    intro c r2 h
    simp at h
  | cons a t ih =>
    intro d r h
    by_cases ha : a.isDigit
    · rw [digitRun, if_pos ha] at h
      rcases hdt : digitRun t with ⟨d2, r2⟩
      rw [hdt] at h
      injection h with h1 h2
      obtain ⟨hsplit, hdig, hstop⟩ := ih d2 r2 hdt
      subst h1
      subst h2
      refine ⟨by simp [hsplit], ?_, hstop⟩
      intro c hc
      rcases List.mem_cons.mp hc with rfl | hc2
      · exact ha
      · exact hdig c hc2
    · rw [digitRun, if_neg ha] at h
      injection h with h1 h2
      subst h1
      subst h2
      refine ⟨rfl, by simp, ?_⟩
      intro c r2 hr
      injection hr with hr1 hr2
      subst hr1
      exact ha

theorem digitRun_complete : ∀ (d : List Char), (∀ c ∈ d, c.isDigit) →
    ∀ r : List Char, (∀ c r2, r = c :: r2 → ¬ c.isDigit) → digitRun (d ++ r) = (d, r) := by
  intro d
  induction d with
  | nil =>
    intro hd r hr
    cases r with
    | nil => rfl
    | cons c r2 => simp [digitRun, hr c r2 rfl]
  | cons a dd ih =>
    intro hd r hr
    have ha : a.isDigit := hd a (by simp)
    simp only [List.cons_append]
    rw [digitRun, if_pos ha, ih (fun c hc => hd c (by simp [hc])) r hr]

theorem goSecondAux_sound : ∀ (bRev r b : List Char),
    goSecondAux bRev r = some b →
    b ≠ [] ∧ (∀ c ∈ b, c ∈ bRev) ∧ ∃ r2, bRev.reverse ++ r = b ++ spB ++ r2 := by
  intro bRev
  induction bRev with
  | nil => intro r b h; simp [goSecondAux] at h
  | cons c brest ih =>
    intro r b h
    rw [goSecondAux] at h
    by_cases hsp : hasPfx spB r = true
    · rw [if_pos hsp] at h
      injection h with h1
      subst h1
      refine ⟨by simp, ?_, ?_⟩
      · intro x hx
        exact List.mem_reverse.mp hx
      · obtain ⟨t, rfl⟩ := (hasPfx_iff spB r).mp hsp
        exact ⟨t, by simp⟩
    · rw [if_neg hsp] at h
      obtain ⟨hb, hmem, r2, heq⟩ := ih (c :: r) b h
      refine ⟨hb, fun x hx => List.mem_cons_of_mem _ (hmem x hx), r2, ?_⟩
      rw [List.reverse_cons, List.append_assoc]
      simpa using heq

theorem goSecondAux_complete (c : Char) (brest r : List Char)
    (hsp : hasPfx spB r = true) : ∃ b, goSecondAux (c :: brest) r = some b := by
  rw [goSecondAux, if_pos hsp]
  exact ⟨_, rfl⟩

theorem tryHere_sound (a r g : List Char) (h : tryHere a r = some g) :
    ∃ c b r2, r = c :: (b ++ spB ++ r2) ∧ g = a ++ c :: b ∧
      b ≠ [] ∧ (∀ x ∈ b, x.isDigit) ∧ c ≠ '\n' := by
  cases r with
  | nil => simp [tryHere] at h
  | cons c r1 =>
    rw [tryHere] at h
    by_cases hc : c = '\n'
    · rw [if_pos hc] at h
      simp at h
    · rw [if_neg hc] at h
      cases hg2 : goSecondAux (digitRun r1).1.reverse (digitRun r1).2 with
      | none => rw [hg2] at h; simp at h
      | some b =>
        rw [hg2] at h
        injection h with h1
        obtain ⟨hb, hmem, r2, heq⟩ := goSecondAux_sound _ _ _ hg2
        rcases hDr : digitRun r1 with ⟨D, rr⟩
        rw [hDr] at heq hmem
        simp only [List.reverse_reverse] at heq
        obtain ⟨hsplit, hdig, -⟩ := digitRun_spec r1 D rr hDr
        refine ⟨c, b, r2, ?_, h1.symm, hb, ?_, hc⟩
        · rw [hsplit]
          have heq2 : D ++ rr = b ++ spB ++ r2 := by simpa using heq
          rw [heq2]
        · intro x hx
          exact hdig x (List.mem_reverse.mp (hmem x hx))

theorem tryHere_complete (a : List Char) (c : Char) (d2 rest : List Char)
    (hc : c ≠ '\n') (hd2 : d2 ≠ []) (hdig : ∀ x ∈ d2, x.isDigit) :
    ∃ g, tryHere a (c :: (d2 ++ spB ++ rest)) = some g := by
  rw [tryHere]
  rw [if_neg hc]
  have hDr : digitRun (d2 ++ spB ++ rest) = (d2, spB ++ rest) := by
    rw [List.append_assoc]
    apply digitRun_complete d2 hdig
    intro x r2 hx
    injection hx with hx1 hx2
    subst hx1
    decide
  rw [hDr]
  cases d2 with
  | nil => exact absurd rfl hd2
  | cons z zs =>
    obtain ⟨w, ws, hw⟩ : ∃ w ws, (z :: zs).reverse = w :: ws := by
      cases hrv : (z :: zs).reverse with
      | nil => exact absurd hrv (by simp)
      | cons w ws => exact ⟨w, ws, rfl⟩
    simp only [hw]
    have hsp : hasPfx spB (spB ++ rest) = true := (hasPfx_iff _ _).mpr ⟨rest, rfl⟩
    obtain ⟨b, hb⟩ := goSecondAux_complete w ws _ hsp
    rw [hb]
    exact ⟨_, rfl⟩

theorem goFirstAux_sound : ∀ (aRev r g : List Char),
    (∀ x ∈ aRev, x.isDigit) →
    goFirstAux aRev r = some g →
    ∃ a c b r2, aRev.reverse ++ r = a ++ [c] ++ b ++ spB ++ r2 ∧
      g = a ++ c :: b ∧ a ≠ [] ∧ b ≠ [] ∧
      (∀ x ∈ a, x.isDigit) ∧ (∀ x ∈ b, x.isDigit) ∧ c ≠ '\n' := by
  intro aRev
  induction aRev with
  | nil => intro r g hd h; simp [goFirstAux] at h
  | cons c0 arest ih =>
    intro r g hdig h
    rw [goFirstAux] at h
    cases hth : tryHere ((c0 :: arest).reverse) r with
    | some g2 =>
      rw [hth] at h
      injection h with h1
      subst h1
      obtain ⟨c, b, r2, hr, hg, hb, hbdig, hc⟩ := tryHere_sound _ _ _ hth
      refine ⟨(c0 :: arest).reverse, c, b, r2, ?_, hg, by simp, hb, ?_, hbdig, hc⟩
      · rw [hr]
        simp [List.append_assoc]
      · intro x hx
        exact hdig x (List.mem_reverse.mp hx)
    | none =>
      rw [hth] at h
      obtain ⟨a, c, b, r2, heq, hg, ha, hb, hadig, hbdig, hc⟩ :=
        ih (c0 :: r) g (fun x hx => hdig x (by simp [hx])) h
      refine ⟨a, c, b, r2, ?_, hg, ha, hb, hadig, hbdig, hc⟩
      rw [List.reverse_cons, List.append_assoc]
      simpa using heq

theorem goFirstAux_complete :
    ∀ (aRev r a1 a2 : List Char) (c : Char) (d2 rest : List Char),
      aRev.reverse = a1 ++ a2 →
      a1 ≠ [] →
      a2 ++ r = c :: (d2 ++ spB ++ rest) →
      c ≠ '\n' → d2 ≠ [] → (∀ x ∈ d2, x.isDigit) →
      ∃ g, goFirstAux aRev r = some g := by
  intro aRev
  induction aRev with
  | nil =>
    intro r a1 a2 c d2 rest hsplit ha1 har hc hd2 hdig
    simp only [List.reverse_nil] at hsplit
    rcases List.append_eq_nil.mp hsplit.symm with ⟨h1, -⟩
    exact absurd h1 ha1
  | cons c0 arest ih =>
    intro r a1 a2 c d2 rest hsplit ha1 har hc hd2 hdig
    rw [goFirstAux]
    cases hth : tryHere ((c0 :: arest).reverse) r with
    | some g => exact ⟨g, rfl⟩
    | none =>
      rcases List.eq_nil_or_concat a2 with rfl | ⟨a2', x, rfl⟩
      · exfalso
        rw [List.append_nil] at hsplit
        simp only [List.nil_append] at har
        obtain ⟨g, hg⟩ := tryHere_complete ((c0 :: arest).reverse) c d2 rest hc hd2 hdig
        rw [har, hg] at hth
        simp at hth
      · have hsp2 : arest.reverse ++ [c0] = (a1 ++ a2') ++ [x] := by
          rw [List.append_assoc]
          simpa [List.reverse_cons] using hsplit
        obtain ⟨hsplit', hx⟩ := List.append_inj' hsp2 rfl
        have hxc0 : x = c0 := by
          injection hx with h1
          exact h1.symm
        subst hxc0
        have har' : a2' ++ (x :: r) = c :: (d2 ++ spB ++ rest) := by
          rw [← har, List.concat_eq_append, List.append_assoc]
          rfl
        obtain ⟨g, hg⟩ := ih (x :: r) a1 a2' c d2 rest hsplit' ha1 har' hc hd2 hdig
        rw [hg]
        exact ⟨g, rfl⟩

theorem subAt_sound (l g : List Char) (h : subAt l = some g) :
    ∃ d1 c d2 r2, l = timeEq ++ d1 ++ [c] ++ d2 ++ spB ++ r2 ∧
      g = d1 ++ c :: d2 ∧ d1 ≠ [] ∧ d2 ≠ [] ∧
      (∀ x ∈ d1, x.isDigit) ∧ (∀ x ∈ d2, x.isDigit) ∧ c ≠ '\n' := by
  unfold subAt at h
  by_cases hp : hasPfx timeEq l = true
  · rw [if_pos hp] at h
    obtain ⟨t, rfl⟩ := (hasPfx_iff timeEq l).mp hp
    have hdrop : (timeEq ++ t).drop 5 = t := by
      rw [show (5:ℕ) = timeEq.length from rfl, List.drop_left]
    rw [hdrop] at h
    rcases hDr : digitRun t with ⟨D, rr⟩
    rw [hDr] at h
    simp only at h
    obtain ⟨hsplit, hdig, -⟩ := digitRun_spec t D rr hDr
    obtain ⟨a, c, b, r2, heq, hg, ha, hb, hadig, hbdig, hc⟩ :=
      goFirstAux_sound D.reverse rr g (fun x hx => hdig x (List.mem_reverse.mp hx)) h
    rw [List.reverse_reverse] at heq
    refine ⟨a, c, b, r2, ?_, hg, ha, hb, hadig, hbdig, hc⟩
    rw [hsplit, heq]
    simp [List.append_assoc]
  · rw [if_neg hp] at h
    simp at h

theorem subAt_complete (d1 : List Char) (c : Char) (d2 r2 : List Char)
    (hd1 : d1 ≠ []) (hd2 : d2 ≠ []) (h1 : ∀ x ∈ d1, x.isDigit)
    (h2 : ∀ x ∈ d2, x.isDigit) (hc : c ≠ '\n') :
    ∃ g, subAt (timeEq ++ d1 ++ [c] ++ d2 ++ spB ++ r2) = some g := by
  unfold subAt
  have hassoc : timeEq ++ d1 ++ [c] ++ d2 ++ spB ++ r2 =
      timeEq ++ (d1 ++ ([c] ++ (d2 ++ (spB ++ r2)))) := by
    simp [List.append_assoc]
  have hp : hasPfx timeEq (timeEq ++ d1 ++ [c] ++ d2 ++ spB ++ r2) = true :=
    (hasPfx_iff _ _).mpr ⟨d1 ++ ([c] ++ (d2 ++ (spB ++ r2))), hassoc⟩
  rw [if_pos hp]
  have hdrop : (timeEq ++ d1 ++ [c] ++ d2 ++ spB ++ r2).drop 5 =
      d1 ++ [c] ++ d2 ++ spB ++ r2 := by
    rw [hassoc, show (5:ℕ) = timeEq.length from rfl, List.drop_left]
    simp [List.append_assoc]
  rw [hdrop]
  by_cases hcd : c.isDigit
  · have hDr : digitRun (d1 ++ [c] ++ d2 ++ spB ++ r2) =
        (d1 ++ [c] ++ d2, spB ++ r2) := by
      have hstep := digitRun_complete (d1 ++ ([c] ++ d2))
        (by
          intro x hx
          simp only [List.mem_append, List.mem_singleton] at hx
          rcases hx with hx | hx | hx
          · exact h1 x hx
          · subst hx; exact hcd
          · exact h2 x hx)
        (spB ++ r2)
        (by
          intro x rr hx
          injection hx with hx1 hx2
          subst hx1
          decide)
      rw [show d1 ++ [c] ++ d2 ++ spB ++ r2 = (d1 ++ ([c] ++ d2)) ++ (spB ++ r2) by
        simp [List.append_assoc]]
      rw [hstep]
      simp [List.append_assoc]
    rw [hDr]
    apply goFirstAux_complete ((d1 ++ [c] ++ d2).reverse) (spB ++ r2) d1 ([c] ++ d2)
      c d2 r2
    · rw [List.reverse_reverse, List.append_assoc]
    · exact hd1
    · simp
    · exact hc
    · exact hd2
    · exact h2
  · have hDr : digitRun (d1 ++ [c] ++ d2 ++ spB ++ r2) =
        (d1, [c] ++ d2 ++ spB ++ r2) := by
      have hstep := digitRun_complete d1 h1 ([c] ++ d2 ++ spB ++ r2)
        (by
          intro x rr hx
          injection hx with hx1 hx2
          subst hx1
          exact fun hdd => hcd hdd)
      rw [show d1 ++ [c] ++ d2 ++ spB ++ r2 = d1 ++ ([c] ++ d2 ++ spB ++ r2) by
        simp [List.append_assoc]]
      rw [hstep]
    rw [hDr]
    apply goFirstAux_complete d1.reverse ([c] ++ d2 ++ spB ++ r2) d1 []
      c d2 r2
    · rw [List.reverse_reverse, List.append_nil]
    · exact hd1
    · simp
    · exact hc
    · exact hd2
    · exact h2

theorem lastSub_sound : ∀ (l g : List Char), lastSub l = some g →
    ∃ p s, l = p ++ s ∧ subAt s = some g := by
  intro l
  induction l with
  | nil => intro g h; simp [lastSub] at h
  | cons c t ih =>
    intro g h
    rw [lastSub] at h
    cases hlt : lastSub t with
    | some g2 =>
      rw [hlt] at h
      injection h with h1
      subst h1
      obtain ⟨p, s, hps, hs⟩ := ih _ hlt
      exact ⟨c :: p, s, by rw [hps]; rfl, hs⟩
    | none =>
      rw [hlt] at h
      exact ⟨[], c :: t, rfl, h⟩

theorem lastSub_complete : ∀ (p s : List Char), (subAt s).isSome →
    (lastSub (p ++ s)).isSome := by
  intro p
  induction p with
  | nil =>
    intro s hs
    cases s with
    | nil => simp [subAt, hasPfx, timeEq] at hs
    | cons c t =>
      simp only [List.nil_append]
      rw [lastSub]
      cases hlt : lastSub t with
      | some g => simp
      | none => simpa using hs
  | cons c p' ih =>
    intro s hs
    simp only [List.cons_append]
    rw [lastSub]
    cases hlt : lastSub (p' ++ s) with
    | some g => simp
    | none => exact absurd (ih s hs) (by simp [hlt])

theorem linesOf_ne_nil : ∀ (l : List Char), linesOf l ≠ [] := by
  intro l
  cases l with
  | nil => simp [linesOf]
  | cons c t =>
    rw [linesOf]
    by_cases hc : c = '\n'
    · simp [hc]
    · rw [if_neg hc]
      cases h : linesOf t <;> simp

theorem linesOf_head_sub : ∀ (l ln : List Char) (rest : List (List Char)),
    linesOf l = ln :: rest → ∃ q, l = ln ++ q := by
  intro l
  induction l with
  | nil =>
    intro ln rest h
    simp only [linesOf] at h
    injection h with h1 h2
    exact ⟨[], by rw [← h1]; rfl⟩
  | cons c t ih =>
    intro ln rest h
    rw [linesOf] at h
    by_cases hc : c = '\n'
    · rw [if_pos hc] at h
      injection h with h1 h2
      exact ⟨c :: t, by rw [← h1]; rfl⟩
    · rw [if_neg hc] at h
      cases hlt : linesOf t with
      | nil => exact absurd hlt (linesOf_ne_nil t)
      | cons ln' rest' =>
        rw [hlt] at h
        injection h with h1 h2
        obtain ⟨q, hq⟩ := ih ln' rest' hlt
        exact ⟨q, by rw [← h1, hq]; rfl⟩

theorem linesOf_mem_sub : ∀ (l : List Char) (ln : List Char), ln ∈ linesOf l →
    ∃ p q, l = p ++ ln ++ q := by
  intro l
  induction l with
  | nil =>
    intro ln h
    simp only [linesOf, List.mem_singleton] at h
    subst h
    exact ⟨[], [], rfl⟩
  | cons c t ih =>
    intro ln h
    rw [linesOf] at h
    by_cases hc : c = '\n'
    · rw [if_pos hc] at h
      rcases List.mem_cons.mp h with rfl | hmem
      · exact ⟨[], c :: t, by simp⟩
      · obtain ⟨p, q, hq⟩ := ih ln hmem
        exact ⟨c :: p, q, by simp [hq]⟩
    · rw [if_neg hc] at h
      cases hlt : linesOf t with
      | nil => exact absurd hlt (linesOf_ne_nil t)
      | cons ln' rest' =>
        rw [hlt] at h
        rcases List.mem_cons.mp h with rfl | hmem
        · obtain ⟨q, hq⟩ := linesOf_head_sub t ln' rest' hlt
          exact ⟨[], q, by simp [hq]⟩
        · obtain ⟨p, q, hq⟩ := ih ln (by rw [hlt]; exact List.mem_cons_of_mem _ hmem)
          exact ⟨c :: p, q, by simp [hq]⟩

theorem linesOf_first_line : ∀ (M r : List Char), (∀ x ∈ M, x ≠ '\n') →
    ∃ s rest, linesOf (M ++ r) = (M ++ s) :: rest := by
  intro M
  induction M with
  | nil =>
    intro r h
    cases hlr : linesOf r with
    | nil => exact absurd hlr (linesOf_ne_nil r)
    | cons ln rest => exact ⟨ln, rest, by simpa using hlr⟩
  | cons c M' ih =>
    intro r h
    have hc : c ≠ '\n' := h c (by simp)
    obtain ⟨s, rest, hs⟩ := ih r (fun x hx => h x (by simp [hx]))
    refine ⟨s, rest, ?_⟩
    simp only [List.cons_append]
    rw [linesOf, if_neg hc, hs]

theorem linesOf_cover : ∀ (pre M post : List Char), (∀ x ∈ M, x ≠ '\n') →
    ∃ ln ∈ linesOf (pre ++ M ++ post), ∃ p s, ln = p ++ M ++ s := by
  intro pre
  induction pre with
  | nil =>
    intro M post h
    obtain ⟨s, rest, hs⟩ := linesOf_first_line M post h
    refine ⟨M ++ s, ?_, [], s, by simp⟩
    simp only [List.nil_append]
    rw [hs]
    simp
  | cons c pre' ih =>
    intro M post h
    obtain ⟨ln, hmem, p, s, hln⟩ := ih M post h
    by_cases hc : c = '\n'
    · refine ⟨ln, ?_, p, s, hln⟩
      simp only [List.cons_append]
      rw [linesOf, if_pos hc]
      exact List.mem_cons_of_mem _ (by simpa using hmem)
    · cases hlt : linesOf (pre' ++ M ++ post) with
      | nil => exact absurd hlt (linesOf_ne_nil _)
      | cons ln0 rest =>
        rw [hlt] at hmem
        rcases List.mem_cons.mp hmem with rfl | hmem'
        · refine ⟨c :: ln, ?_, c :: p, s, by simp [hln]⟩
          simp only [List.cons_append]
          rw [linesOf, if_neg hc]
          rw [show linesOf (pre' ++ M ++ post) = ln :: rest from by
            simpa [List.append_assoc] using hlt]
          simp
        · refine ⟨ln, ?_, p, s, hln⟩
          simp only [List.cons_append]
          rw [linesOf, if_neg hc]
          rw [show linesOf (pre' ++ M ++ post) = ln0 :: rest from by
            simpa [List.append_assoc] using hlt]
          exact List.mem_cons_of_mem _ hmem'

theorem firstSome_sound : ∀ (lns : List (List Char)) (g : List Char),
    firstSome lns = some g → ∃ ln ∈ lns, lastSub ln = some g := by
  intro lns
  induction lns with
  | nil => intro g h; simp [firstSome] at h
  | cons l0 rest ih =>
    intro g h
    rw [firstSome] at h
    cases hl0 : lastSub l0 with
    | some g2 =>
      rw [hl0] at h
      injection h with h1
      subst h1
      exact ⟨l0, by simp, hl0⟩
    | none =>
      rw [hl0] at h
      obtain ⟨ln, hmem, hln⟩ := ih g h
      exact ⟨ln, List.mem_cons_of_mem _ hmem, hln⟩

theorem firstSome_complete : ∀ (lns : List (List Char)) (ln : List Char),
    ln ∈ lns → (lastSub ln).isSome → (firstSome lns).isSome := by
  intro lns
  induction lns with
  | nil => intro ln h; simp at h
  | cons l0 rest ih =>
    intro ln hmem hsome
    rw [firstSome]
    cases hl0 : lastSub l0 with
    | some g => simp
    | none =>
      rcases List.mem_cons.mp hmem with rfl | hmem'
      · rw [hl0] at hsome
        simp at hsome
      · exact ih ln hmem' hsome

theorem digit_ne_newline (z : Char) (hz : z.isDigit = true) : z ≠ '\n' := by
  intro h
  subst h
  simp at hz

theorem searchGroup_isSome_iff (buf : List Char) :
    (searchGroup buf).isSome ↔ LooseMarker buf := by
  constructor
  · intro h
    obtain ⟨g, hg⟩ := Option.isSome_iff_exists.mp h
    unfold searchGroup at hg
    obtain ⟨ln, hmem, hln⟩ := firstSome_sound _ _ hg
    obtain ⟨p, s, hps, hsub⟩ := lastSub_sound _ _ hln
    obtain ⟨d1, c, d2, r2, hdec, -, hd1, hd2, hdig1, hdig2, hc⟩ := subAt_sound _ _ hsub
    obtain ⟨P, Q, hPQ⟩ := linesOf_mem_sub buf ln hmem
    refine ⟨P ++ p, d1, c, d2, r2 ++ Q, ?_, hd1, hd2, hdig1, hdig2, hc⟩
    rw [hPQ, hps, hdec]
    simp [List.append_assoc]
  · rintro ⟨pre, d1, c, d2, rest, hdec, hd1, hd2, hdig1, hdig2, hc⟩
    have htime : ∀ x ∈ timeEq, x ≠ '\n' := by decide
    have hspb : ∀ x ∈ spB, x ≠ '\n' := by decide
    have hM : ∀ x ∈ timeEq ++ d1 ++ [c] ++ d2 ++ spB, x ≠ '\n' := by
      intro x hx
      simp only [List.mem_append, List.mem_singleton] at hx
      rcases hx with ((((hx | hx) | hx) | hx) | hx)
      · exact htime x hx
      · exact digit_ne_newline x (hdig1 x hx)
      · rw [hx]; exact hc
      · exact digit_ne_newline x (hdig2 x hx)
      · exact hspb x hx
    have hbuf : buf = pre ++ (timeEq ++ d1 ++ [c] ++ d2 ++ spB) ++ rest := by
      rw [hdec]
      simp [List.append_assoc]
    obtain ⟨ln, hmem, p, s, hln⟩ :=
      linesOf_cover pre (timeEq ++ d1 ++ [c] ++ d2 ++ spB) rest hM
    unfold searchGroup
    rw [hbuf]
    apply firstSome_complete _ ln hmem
    obtain ⟨g, hg⟩ := subAt_complete d1 c d2 s hd1 hd2 hdig1 hdig2 hc
    have hshape : ln = p ++ (timeEq ++ d1 ++ [c] ++ d2 ++ spB ++ s) := by
      rw [hln]
      simp [List.append_assoc]
    rw [hshape]
    apply lastSub_complete
    rw [hg]
    simp

/-- C5, counterexample: the regex leaves the dot unescaped, so it matches a
marker with no period at all: on the buffer time=345 b the code returns the
value 345, while the buffer contains no complete time=(digits).(digits)
marker, for which the claim requires the result none. -/
theorem C5_cex :
    positionOf (String.toList ("time=345 b")) = .ok (some 345) ∧
    specDotMarker (String.toList ("time=345 b")) = false := by
  exact ⟨by rfl, by rfl⟩

/-- C5 (amended): the search accepts exactly the buffers containing
time=, a nonempty digit run, one arbitrary non-newline byte, a nonempty
digit run, and immediately the two bytes space-b; the value returned is the
last such match within the first newline-separated line holding one (so a
dotless token like time=345 yields 345, and an earlier line wins over a
later one); with no such match the result is none.  The claim's two examples
hold as stated. -/
theorem C5_thm :
    (∀ buf : List Char, (searchGroup buf).isSome ↔ LooseMarker buf) ∧
    positionOf (String.toList ("...time=12.50 bbitrate=...")) = .ok (some (25/2)) ∧
    positionOf (String.toList ("...time=12.5")) = .ok none ∧
    positionOf (String.toList ("time=1.5 b\ntime=2.5 b")) = .ok (some (3/2)) := by
  refine ⟨searchGroup_isSome_iff, ?_, by rfl, ?_⟩
  · have h1 : searchGroup (String.toList ("...time=12.50 bbitrate=...")) =
        some ('1' :: '2' :: '.' :: '5' :: '0' :: []) := by rfl
    have h2 : groupFloat ('1' :: '2' :: '.' :: '5' :: '0' :: []) =
        some (((12 : ℕ) : ℚ) + ((50 : ℕ) : ℚ) / (10 : ℚ) ^ (2 : ℕ)) := by rfl
    simp only [positionOf, h1, h2]
    norm_num
  · have h1 : searchGroup (String.toList ("time=1.5 b\ntime=2.5 b")) =
        some ('1' :: '.' :: '5' :: []) := by rfl
    have h2 : groupFloat ('1' :: '.' :: '5' :: []) =
        some (((1 : ℕ) : ℚ) + ((5 : ℕ) : ℚ) / (10 : ℚ) ^ (1 : ℕ)) := by rfl
    simp only [positionOf, h1, h2]
    norm_num

/-- C5, witness: the characterization of the amended theorem applied to the
counterexample buffer, whose dotless marker is accepted. -/
theorem C5_wit :
    (searchGroup (String.toList ("time=345 b"))).isSome ↔
      LooseMarker (String.toList ("time=345 b")) :=
  C5_thm.1 (String.toList ("time=345 b"))
